import Mathlib

/-!
Verification of the chip-database / HEX-size-validation core of PyK150
(`chip_database.py`), shallowly embedded in Lean 4.

Python strings are modelled as `List Char` (ASCII scope: the catalog file,
chip names, HEX files and all literals appearing in the source are ASCII;
Python's Unicode-aware `str.upper`, `str.strip`, `str.isdigit` coincide with
the ASCII behaviour modelled here on such data).  Python `dict` objects are
modelled as insertion-ordered association lists with overwrite-on-update,
`None` results as `Option`, exceptions caught by a surrounding
`try/except` as `Option` failure (`none`), and file I/O as an
`Option (List Str)` argument holding the file's lines (`none` = the file
could not be opened/read).  `list.sort` / `sorted` (a stable comparison
sort) is modelled by a stable insertion sort, which computes the same list.
-/

namespace PyK150

/-- A Python string (ASCII scope). -/
abbrev Str := List Char

/-- Coerce a Lean string literal to the `Str` model. -/
def str (s : String) : Str := s.data

/-! ## Models of the Python `int(·, base)` built-in (CPython int-literal
grammar, ASCII scope): surrounding whitespace is stripped, an optional
single `+`/`-` sign is allowed, for base 16 an optional `0x`/`0X` prefix
(optionally followed by one underscore) is allowed, and digits may be
separated by single underscores.  Parsing failure (`ValueError`) is `none`. -/

/-- Characters stripped by Python `str.strip()` (ASCII whitespace). -/
def pyIsSpace (c : Char) : Bool :=
  c = ' ' || c = '\t' || c = '\n' || c = '\r' || c = '\x0b' || c = '\x0c'

/-- Python `str.strip()`. -/
def pyStrip (s : Str) : Str :=
  ((s.dropWhile pyIsSpace).reverse.dropWhile pyIsSpace).reverse

/-- Value of a hexadecimal digit character, as accepted by `int(s, 16)`. -/
def hexDigitVal? (c : Char) : Option Nat :=
  if '0' ≤ c ∧ c ≤ '9' then some (c.toNat - 48)
  else if 'a' ≤ c ∧ c ≤ 'f' then some (c.toNat - 87)
  else if 'A' ≤ c ∧ c ≤ 'F' then some (c.toNat - 55)
  else none

/-- Value of a decimal digit character, as accepted by `int(s)`. -/
def decDigitVal? (c : Char) : Option Nat :=
  if '0' ≤ c ∧ c ≤ '9' then some (c.toNat - 48) else none

/-- Digit tail of a Python int literal: digits, single underscores allowed
only between digits. -/
def pyDigitsAux (dv : Char → Option Nat) (base : Nat) : Str → Nat → Option Nat
  | [], acc => some acc
  | c :: rest, acc =>
    if c = '_' then
      match rest with
      | [] => none
      | c2 :: rest2 => (dv c2).bind (fun d => pyDigitsAux dv base rest2 (base * acc + d))
    else
      (dv c).bind (fun d => pyDigitsAux dv base rest (base * acc + d))

/-- Nonempty digit sequence of a Python int literal (must start with a digit). -/
def pyDigits (dv : Char → Option Nat) (base : Nat) : Str → Option Nat
  | [] => none
  | c :: rest => (dv c).bind (fun d => pyDigitsAux dv base rest d)

/-- Magnitude part of `int(s, 16)`: optional `0x`/`0X` prefix (optionally
followed by one underscore), then hex digits. -/
def pyHexMag (s : Str) : Option Nat :=
  match s with
  | c0 :: c1 :: rest =>
    if c0 = '0' ∧ (c1 = 'x' ∨ c1 = 'X') then
      if rest.head? = some '_' then pyDigits hexDigitVal? 16 rest.tail
      else pyDigits hexDigitVal? 16 rest
    else pyDigits hexDigitVal? 16 s
  | _ => pyDigits hexDigitVal? 16 s

/-- Magnitude part of `int(s)` (base 10, no prefix). -/
def pyDecMag (s : Str) : Option Nat := pyDigits decDigitVal? 10 s

/-- Strip + optional sign wrapper shared by the two `int` models. -/
def pyIntOfMag (mag : Str → Option Nat) (s : Str) : Option Int :=
  let t := pyStrip s
  if t.head? = some '+' then (mag t.tail).map (fun n => (n : Int))
  else if t.head? = some '-' then (mag t.tail).map (fun n => -(n : Int))
  else if t = [] then none
  else (mag t).map (fun n => (n : Int))

/-- Python `int(s, 16)`. -/
def pyIntHex (s : Str) : Option Int := pyIntOfMag pyHexMag s

/-- Python `int(s)` (base 10). -/
def pyIntDec (s : Str) : Option Int := pyIntOfMag pyDecMag s

/-- Python `str.isdigit()` (ASCII scope: nonempty and all decimal digits). -/
def pyIsdigit (s : Str) : Bool := !s.isEmpty && s.all Char.isDigit

/-- Python `str.upper()` on one ASCII character. -/
def pyUpperChar (c : Char) : Char :=
  if 'a' ≤ c ∧ c ≤ 'z' then Char.ofNat (c.toNat - 32) else c

/-- Python `str.upper()` (ASCII scope). -/
def pyUpper (s : Str) : Str := s.map pyUpperChar

/-- Python `str.startswith(pat)` (arguments: string, pattern). -/
def listStartsWith : Str → Str → Bool
  | _, [] => true
  | [], _ :: _ => false
  | c :: s, p :: ps => c = p && listStartsWith s ps

/-- Python `pat in s` substring test (arguments: string, pattern). -/
def listContainsSub : Str → Str → Bool
  | s, pat =>
    listStartsWith s pat ||
      (match s with
       | [] => false
       | _ :: t => listContainsSub t pat)

/-- Worker for Python `str.split(sep)` (nonempty separator; `acc` holds the
current piece reversed).  Structural recursion on a fuel that starts at the
string's length; every step consumes at least one character, so the
0-fuel-on-nonempty-input branch is unreachable. -/
def pySplitGo (sep : Str) : Nat → Str → Str → List Str
  | _, [], acc => [acc.reverse]
  | 0, s, acc => [acc.reverse ++ s]
  | fuel + 1, c :: rest, acc =>
    if listStartsWith (c :: rest) sep then
      acc.reverse :: pySplitGo sep fuel (rest.drop (sep.length - 1)) []
    else
      pySplitGo sep fuel rest (c :: acc)

/-- Python `s.split(sep)` for a nonempty separator. -/
def pySplit (s sep : Str) : List Str := pySplitGo sep s.length s []

/-- Python `s.rstrip('\r')`. -/
def rstripCR (s : Str) : Str := (s.reverse.dropWhile (fun c => c = '\r')).reverse

/-- Python `<` / `sorted` string comparison (lexicographic by code point),
as a `≤` test. -/
def strLe : Str → Str → Bool
  | [], _ => true
  | _ :: _, [] => false
  | a :: s, b :: t => if a = b then strLe s t else decide (a < b)

/-! ## The chip record model (`chip_info` dicts of `parse_chipdata`) -/

/-- A `chip_info` dict: insertion-ordered association list, one entry per key. -/
abbrev ChipInfo := List (Str × Str)

/-- Python `dict[key] = value` (overwrite in place, else append). -/
def dictSet : ChipInfo → Str → Str → ChipInfo
  | [], k, v => [(k, v)]
  | (k', v') :: rest, k, v =>
    if k' = k then (k, v) :: rest else (k', v') :: dictSet rest k v

/-- Python `dict.get(key, default)`. -/
def dictGetD (d : ChipInfo) (k dflt : Str) : Str :=
  (List.lookup k d).getD dflt

/-- `chip_info['name']` (the key is always present on constructed records;
the default is never taken there). -/
def chipNameOf (c : ChipInfo) : Str := dictGetD c (str r"name") []

/-- One iteration of the field loop in `parse_chipdata`: a stripped line
containing `=` and not starting with `LIST` is split on the first `=`;
key and value are stripped (and the value `rstrip`ped of `'\r'`). -/
def parseFieldLine (info : ChipInfo) (rawLine : Str) : ChipInfo :=
  let line := pyStrip rawLine
  if line.contains '=' && !(listStartsWith line (str r"LIST")) then
    let key := line.takeWhile (fun c => c != '=')
    let value := (line.dropWhile (fun c => c != '=')).drop 1
    dictSet info (pyStrip key) (rstripCR (pyStrip value))
  else info

/-- The line separator `block.strip().split('\n')` splits on. -/
def lineSep : Str := "\n".data

/-- Per-block parsing of `parse_chipdata`: strip the block, split into
lines; the first line up to `'\r'`, stripped, is the chip name (empty name:
record skipped); remaining lines fill the field dict.  The `[]` branch is
unreachable (Python `split` never returns an empty list) and mirrors the
dead `if not lines: continue` check. -/
def parseChipBlock (block : Str) : Option (Str × ChipInfo) :=
  match pySplit (pyStrip block) lineSep with
  | [] => none
  | nameLine :: rest =>
    let chip_name := pyStrip (nameLine.takeWhile (fun c => c != '\r'))
    if chip_name = [] then none
    else some (chip_name, rest.foldl parseFieldLine [(str r"name", chip_name)])

/-- Block `i` of the split: block 0 must itself start with `CHIPname=`
(which is then removed, `block[9:]`); later blocks had their marker
consumed by the split. -/
def blockRecord? (i : Nat) (block : Str) : Option (Str × ChipInfo) :=
  if i = 0 then
    if listStartsWith block (str r"CHIPname=") then parseChipBlock (block.drop 9)
    else none
  else parseChipBlock block

/-- The marker `data.split('\n\nCHIPname=')` splits on. -/
def blockSep : Str := "\n\nCHIPname=".data

/-- `chip_blocks` of `parse_chipdata`. -/
def chipBlocks (data : Str) : List Str := pySplit data blockSep

/-- All records parsed from the blocks (before the `INCLUDE` filter),
paired with their `chip_name`. -/
def parsedBlocks (data : Str) : List (Str × ChipInfo) :=
  (chipBlocks data).enum.filterMap (fun p => blockRecord? p.1 p.2)

/-- The inclusion test: `chip_info.get('INCLUDE', 'N') == 'Y'`. -/
def isIncluded (info : ChipInfo) : Bool :=
  dictGetD info (str r"INCLUDE") (str r"N") == str r"Y"

/-- The records `parse_chipdata` keeps (in source order). -/
def includedChips (data : Str) : List (Str × ChipInfo) :=
  (parsedBlocks data).filter (fun p => isIncluded p.2)

/-- `get_chip_family`: ordered first-match-wins chain over the upper-cased
name. -/
def get_chip_family (chip_name : Str) : Str :=
  let n := pyUpper chip_name
  if listStartsWith n (str r"10F") then str r"PIC10F"
  else if listStartsWith n (str r"12") then
    (if n.contains 'C' then str r"PIC12C"
     else if n.contains 'F' then str r"PIC12F"
     else str r"PIC12")
  else if listStartsWith n (str r"16") then
    (if n.contains 'C' then str r"PIC16C"
     else if n.contains 'F' then str r"PIC16F"
     else str r"PIC16")
  else if listStartsWith n (str r"18") then str r"PIC18F"
  else if listStartsWith n (str r"30F") || listStartsWith n (str r"33F") then str r"dsPIC"
  else if listStartsWith n (str r"24") then str r"PIC24"
  else str r"Other"

/-- The `chip_families` dict: family tag to list of chip names. -/
abbrev Families := List (Str × List Str)

/-- `if family not in chip_families: chip_families[family] = []` followed by
`chip_families[family].append(name)`. -/
def famAdd : Families → Str → Str → Families
  | [], family, nm => [(family, [nm])]
  | (k, v) :: rest, family, nm =>
    if k = family then (k, v ++ [nm]) :: rest else (k, v) :: famAdd rest family nm

/-- The family-bucketing loop of `parse_chipdata` over the included records
(each record's `chip_name` is appended to its computed family's list, in
source order). -/
def famsOf (recs : List (Str × ChipInfo)) : Families :=
  recs.foldl (fun fs p => famAdd fs (get_chip_family p.1) p.1) []

/-- The patch guard: `any(chip['name'].upper() == '16F887' for chip in chips)`. -/
def has16F887 (chips : List ChipInfo) : Bool :=
  chips.any (fun c => pyUpper (chipNameOf c) == str r"16F887")

/-- The synthesized `16F887` record of `parse_chipdata`. -/
def pic16f887_info : ChipInfo :=
  [(str r"name", str r"16F887"), (str r"INCLUDE", str r"Y"),
   (str r"ROMSIZE", str r"001C00"), (str r"FAMILY", str r"PIC16F")]

/-- `self.chips.sort(key=lambda x: x['name'])`: stable sort by name. -/
def sortChips (cs : List ChipInfo) : List ChipInfo :=
  List.insertionSort (fun a b => strLe (chipNameOf a) (chipNameOf b) = true) cs

/-- `list.sort()` on a list of strings. -/
def sortStrs (l : List Str) : List Str :=
  List.insertionSort (fun a b => strLe a b = true) l

/-- The catalog state (`self.chips`, `self.chip_families`). -/
structure DB where
  chips : List ChipInfo
  families : Families

/-- `parse_chipdata(self, data)` as a state transformer: on falsy (empty)
data it returns immediately, leaving the previous catalog untouched;
otherwise it rebuilds the catalog from scratch: parse blocks, keep included
records, bucket families, patch in `16F887` if no included record's
upper-cased name equals `16F887`, then sort the chip list by name and each
family list.  (The per-record appends of the source loop are expressed as
`filter`/`map`/`foldl` over the same record sequence in the same order.) -/
def parse_chipdata (st : DB) (data : Str) : DB :=
  if data = [] then st
  else
    let recs := includedChips data
    let chips := recs.map Prod.snd
    let fams := famsOf recs
    let patched :=
      if has16F887 chips then (chips, fams)
      else (chips ++ [pic16f887_info], famAdd fams (get_chip_family (str r"16F887")) (str r"16F887"))
    ⟨sortChips patched.1, patched.2.map (fun p => (p.1, sortStrs p.2))⟩

/-! ## Query interface (`get_chip_info`, `get_chip_rom_size`, `search_chips`) -/

/-- `get_chip_info`: first record whose upper-cased name matches. -/
def get_chip_info (chips : List ChipInfo) (chip_name : Str) : Option ChipInfo :=
  chips.find? (fun c => pyUpper (chipNameOf c) == pyUpper chip_name)

/-- The per-field parse of `get_chip_rom_size`: an all-digit value is parsed
as hexadecimal, any other value with ordinary `int` parsing; a raised
`ValueError` is `none`. -/
def parseRomValue (s : Str) : Option Int :=
  if pyIsdigit s then pyIntHex s else pyIntDec s

/-- The ROM-size field names tried, in order. -/
def romFields : List Str := [str r"ROMSIZE", str r"ROMsize", str r"romsize"]

/-- The field loop of `get_chip_rom_size`: first field that is present and
parses wins; a missing field or a parse failure falls through (`continue`). -/
def tryRomFields (info : ChipInfo) : Option Int :=
  romFields.foldl (fun acc f => acc <|> (List.lookup f info).bind parseRomValue) none

/-- The hardcoded fallback `rom_sizes` table. -/
def rom_sizes : List (Str × Int) :=
  [(str r"16F690", 4096), (str r"16F84A", 1024), (str r"16F84", 1024),
   (str r"16F628A", 2048), (str r"16F877A", 8192), (str r"16F887", 7168),
   (str r"12F675", 1024), (str r"12F683", 2048), (str r"18F2550", 16384),
   (str r"18F4550", 16384), (str r"10F200", 256), (str r"10F202", 512)]

/-- `get_chip_rom_size`: field-based resolution on the found record, else
the fallback table keyed by the upper-cased chip name, else `None`. -/
def get_chip_rom_size (chips : List ChipInfo) (chip_name : Str) : Option Int :=
  match get_chip_info chips chip_name with
  | some info =>
    match tryRomFields info with
    | some v => some v
    | none => List.lookup (pyUpper chip_name) rom_sizes
  | none => List.lookup (pyUpper chip_name) rom_sizes

/-- `search_chips`: names whose upper-cased form contains the upper-cased
query as a substring, sorted. -/
def search_chips (chips : List ChipInfo) (query : Str) : List Str :=
  sortStrs
    ((chips.filter (fun c => listContainsSub (pyUpper (chipNameOf c)) (pyUpper query))).map
      chipNameOf)

/-! ## HEX size parsing and validation -/

/-- Python slice `s[a:b]` (character indices, clamped). -/
def pySlice (s : Str) (a b : Nat) : Str := (s.drop a).take (b - a)

/-- One loop iteration of `_parse_hex_file_size`: the line is stripped;
non-`:` lines are skipped; the three fixed-offset hex fields are parsed
(`int` raising aborts the whole call, modelled by the `none` state); data
records (`type 00`, positive byte count) below address `0x2000` update the
running maximum of `address // 2 + byte_count // 2`. -/
def hexRecordStep (acc : Option Int) (rawLine : Str) : Option Int :=
  match acc with
  | none => none
  | some m =>
    let line := pyStrip rawLine
    if !(listStartsWith line (str r":")) then some m
    else
      match pyIntHex (pySlice line 1 3), pyIntHex (pySlice line 3 7),
          pyIntHex (pySlice line 7 9) with
      | some byte_count, some address, some record_type =>
        if record_type = 0 ∧ byte_count > 0 then
          if address < 0x2000 then
            some (max m (address.fdiv 2 + byte_count.fdiv 2))
          else some m
        else some m
      | _, _, _ => none

/-- `_parse_hex_file_size` over the file's lines (the surrounding
`try/except` returning `None` is the `none` result). -/
def parse_hex_file_size (lines : List Str) : Option Int :=
  lines.foldl hexRecordStep (some 0)

/-- Python `str(n)` for an int. -/
def pyStrInt (n : Int) : Str := (toString n).data

/-- Message of the unknown-ROM-size pass outcome. -/
def msgUnknownRom (chip_name : Str) : Str :=
  str r"Unknown ROM size for " ++ chip_name

/-- Message of the unparseable-HEX pass outcome. -/
def msgCouldNotParse : Str := str r"Could not parse HEX file"

/-- Message of the fail outcome. -/
def msgTooLarge (h r : Int) : Str :=
  str r"HEX file too large: " ++ pyStrInt h ++ str r" words > " ++ pyStrInt r ++
    str r" words ROM capacity"

/-- Message of the confirmed-fits pass outcome. -/
def msgOK (h r : Int) : Str :=
  str r"HEX file size OK: " ++ pyStrInt h ++ str r" words <= " ++ pyStrInt r ++
    str r" words ROM capacity"

/-- `validate_hex_file_size`.  The HEX file argument is the file's lines,
or `none` when the file cannot be read (which the source's inner
`try/except` turns into a `None` size).  The source's outer catch-all
`except` has no reachable counterpart here: every failure mode of the
embedded callees is already an `Option`. -/
def validate_hex_file_size (chips : List ChipInfo) (chip_name : Str)
    (hexFile : Option (List Str)) : Bool × Str :=
  match get_chip_rom_size chips chip_name with
  | none => (true, msgUnknownRom chip_name)
  | some rom_size =>
    match hexFile.bind parse_hex_file_size with
    | none => (true, msgCouldNotParse)
    | some hex_data_size =>
      if hex_data_size > rom_size then (false, msgTooLarge hex_data_size rom_size)
      else (true, msgOK hex_data_size rom_size)

/-! ## Claim-side (specification) definitions -/

/-- Positional base-16 value of a digit string (the claim's "parsed as
hexadecimal"). -/
def specHexValue (s : Str) : Nat :=
  s.foldl (fun a c => 16 * a + ((hexDigitVal? c).getD 0)) 0

/-- A nonempty all-hex-digit string. -/
def hexDigitsOnly (s : Str) : Bool :=
  !s.isEmpty && s.all (fun c => (hexDigitVal? c).isSome)

/-- Syntactic well-formedness of one line of an Intel HEX input: if the
stripped line starts with `:`, its three fixed-offset fields consist of hex
digits. -/
def wfHexLine (rawLine : Str) : Bool :=
  !(listStartsWith (pyStrip rawLine) (str r":")) ||
    (hexDigitsOnly (pySlice (pyStrip rawLine) 1 3) &&
      hexDigitsOnly (pySlice (pyStrip rawLine) 3 7) &&
      hexDigitsOnly (pySlice (pyStrip rawLine) 7 9))

/-- Claim C1's qualifying-record contribution: a line qualifies when it
starts with `:`, has record type `00`, a nonzero byte count, and an address
strictly below `0x2000`; its contribution is
`address div 2 + byte_count div 2`. -/
def specContribution (rawLine : Str) : Option Int :=
  let line := pyStrip rawLine
  if listStartsWith line (str r":") then
    match pyIntHex (pySlice line 1 3), pyIntHex (pySlice line 3 7),
        pyIntHex (pySlice line 7 9) with
    | some byte_count, some address, some record_type =>
      if record_type = 0 ∧ byte_count ≠ 0 ∧ address < 0x2000 then
        some (address.fdiv 2 + byte_count.fdiv 2)
      else none
    | _, _, _ => none
  else none

/-- Claim C1's estimated size: the running maximum (from 0) of the
qualifying contributions. -/
def specHexSize (lines : List Str) : Int :=
  lines.foldl
    (fun m l =>
      match specContribution l with
      | some v => max m v
      | none => m)
    0

/-- `sub` occurs as a contiguous substring of `s`. -/
def hasSub (s sub : Str) : Prop := ∃ a b : Str, s = a ++ sub ++ b

/-! ## Concrete catalog texts used by witnesses -/

/-- A small catalog text: one included record (`16F84`), one excluded
(`12C508`). -/
def sampleData : Str :=
  "CHIPname=16F84\nINCLUDE=Y\nROMSIZE=000400\n\nCHIPname=12C508\nINCLUDE=N".data

/-- A catalog text whose two included records carry the same name. -/
def dupNameData : Str :=
  "CHIPname=16F84\nINCLUDE=Y\n\nCHIPname=16F84\nINCLUDE=Y".data

/-! ## Basic lemmas about the Python primitives -/

theorem hexDigit_ne {c : Char} (h : (hexDigitVal? c).isSome = true) (x : Char)
    (hx : hexDigitVal? x = none) : c ≠ x := by
  intro he
  rw [he, hx] at h
  simp at h

theorem hexDigit_not_space {c : Char} (h : (hexDigitVal? c).isSome = true) :
    pyIsSpace c = false := by
  rcases hc : pyIsSpace c
  · rfl
  · exfalso
    simp only [pyIsSpace, Bool.or_eq_true, decide_eq_true_eq] at hc
    rcases hc with ((((h1 | h1) | h1) | h1) | h1) | h1 <;> subst h1 <;>
      exact absurd h (by decide)

theorem dropWhile_eq_self_of_head {p : Char → Bool} {s : Str}
    (h : ∀ c ∈ s, p c = false) : s.dropWhile p = s := by
  cases s with
  | nil => rfl
  | cons c t => simp [List.dropWhile_cons, h c (by simp)]

theorem pyStrip_eq_self {s : Str} (h : ∀ c ∈ s, pyIsSpace c = false) :
    pyStrip s = s := by
  unfold pyStrip
  rw [dropWhile_eq_self_of_head h,
    dropWhile_eq_self_of_head (fun c hc => h c (List.mem_reverse.mp hc)),
    List.reverse_reverse]

theorem pyDigitsAux_hex {s : Str} (h : ∀ c ∈ s, (hexDigitVal? c).isSome = true)
    (acc : Nat) :
    pyDigitsAux hexDigitVal? 16 s acc =
      some (s.foldl (fun a c => 16 * a + ((hexDigitVal? c).getD 0)) acc) := by
  induction s generalizing acc with
  | nil => rfl
  | cons c rest ih =>
    have hc := h c (by simp)
    have hub : c ≠ '_' := hexDigit_ne hc '_' (by decide)
    obtain ⟨d, hd⟩ := Option.isSome_iff_exists.mp hc
    rw [pyDigitsAux.eq_def]
    simp only [if_neg hub, hd, Option.some_bind, List.foldl_cons, Option.getD_some]
    exact ih (fun c hc => h c (by simp [hc])) _

theorem pyDigits_hex {s : Str} (hne : s ≠ [])
    (h : ∀ c ∈ s, (hexDigitVal? c).isSome = true) :
    pyDigits hexDigitVal? 16 s = some (specHexValue s) := by
  cases s with
  | nil => exact absurd rfl hne
  | cons c rest =>
    have hc := h c (by simp)
    obtain ⟨d, hd⟩ := Option.isSome_iff_exists.mp hc
    rw [pyDigits, hd, specHexValue]
    simp only [Option.some_bind, List.foldl_cons, hd, Option.getD_some, Nat.mul_zero,
      Nat.zero_add]
    exact pyDigitsAux_hex (fun c hc => h c (by simp [hc])) d

theorem pyHexMag_hexOnly {s : Str} (hne : s ≠ [])
    (h : ∀ c ∈ s, (hexDigitVal? c).isSome = true) :
    pyHexMag s = pyDigits hexDigitVal? 16 s := by
  match s with
  | [] => exact absurd rfl hne
  | [c] => rfl
  | c0 :: c1 :: rest =>
    have h1 := h c1 (by simp)
    have hx : c1 ≠ 'x' := hexDigit_ne h1 'x' (by decide)
    have hX : c1 ≠ 'X' := hexDigit_ne h1 'X' (by decide)
    rw [pyHexMag, if_neg]
    rintro ⟨-, h2 | h2⟩
    · exact hx h2
    · exact hX h2

theorem hexDigitsOnly_spec {s : Str} (h : hexDigitsOnly s = true) :
    s ≠ [] ∧ ∀ c ∈ s, (hexDigitVal? c).isSome = true := by
  simp only [hexDigitsOnly, Bool.and_eq_true, Bool.not_eq_true', List.isEmpty_eq_false,
    List.all_eq_true] at h
  exact ⟨h.1, h.2⟩

theorem pyIntHex_hexOnly {s : Str} (h : hexDigitsOnly s = true) :
    pyIntHex s = some ((specHexValue s : Nat) : Int) := by
  obtain ⟨hne, hall⟩ := hexDigitsOnly_spec h
  have hstrip : pyStrip s = s := pyStrip_eq_self (fun c hc => hexDigit_not_space (hall c hc))
  cases s with
  | nil => exact absurd rfl hne
  | cons c rest =>
    have hc := hall c (by simp)
    have hmag : pyHexMag (c :: rest) = some (specHexValue (c :: rest)) := by
      rw [pyHexMag_hexOnly (by simp) hall, pyDigits_hex (by simp) hall]
    rw [pyIntHex, pyIntOfMag]
    simp only [hstrip, List.head?_cons, List.tail_cons]
    rw [if_neg (by simp [hexDigit_ne hc '+' (by decide)]),
      if_neg (by simp [hexDigit_ne hc '-' (by decide)]),
      if_neg (by simp), hmag]
    rfl

/-! ## Claim C3 -/

/-- C3: for every stored ROM-size value consisting entirely of decimal digit
characters, the field parse of `get_chip_rom_size` parses it as hexadecimal
(its positional base-16 value), not decimal — in particular `"001000"`
resolves to 4096 — while a value that is not all digits goes to ordinary
integer parsing. -/
theorem romSizeWords_digit_hex_rule :
    (∀ s : Str, pyIsdigit s = true → parseRomValue s = some ((specHexValue s : Nat) : Int)) ∧
    (∀ s : Str, pyIsdigit s = false → parseRomValue s = pyIntDec s) ∧
    parseRomValue (str r"001000") = some 4096 ∧
    specHexValue (str r"001000") = 4096 ∧
    get_chip_rom_size [[(str r"name", str r"TESTCHIP"), (str r"ROMSIZE", str r"001000")]]
      (str r"TESTCHIP") = some 4096 := by
  refine ⟨fun s hs => ?_, fun s hs => by rw [parseRomValue, if_neg (by simp [hs])],
    by decide, by decide, by decide⟩
  have hhex : hexDigitsOnly s = true := by
    simp only [pyIsdigit, Bool.and_eq_true, Bool.not_eq_true', List.isEmpty_eq_false,
      List.all_eq_true] at hs
    simp only [hexDigitsOnly, Bool.and_eq_true, Bool.not_eq_true', List.isEmpty_eq_false,
      List.all_eq_true]
    refine ⟨hs.1, fun c hc => ?_⟩
    have hd := hs.2 c hc
    simp only [Char.isDigit, Bool.and_eq_true, decide_eq_true_eq] at hd
    rw [hexDigitVal?, if_pos (⟨hd.1, hd.2⟩ : '0' ≤ c ∧ c ≤ '9')]
    rfl
  rw [parseRomValue, if_pos hs]
  exact pyIntHex_hexOnly hhex

/-- Witness for C3 at the claim's concrete figure. -/
theorem romSizeWords_digit_hex_rule_witness :
    pyIsdigit (str r"001000") = true ∧ parseRomValue (str r"001000") = some 4096 :=
  ⟨by decide, by
    rw [romSizeWords_digit_hex_rule.1 (str r"001000") (by decide)]
    decide⟩

/-! ## Claim C5 -/

/-- C5: family classification is a pure, deterministic, case-insensitive
function of the chip name alone (names with equal upper-cased forms get the
same family), with the claim's sample values. -/
theorem family_classification :
    (∀ s t : Str, pyUpper s = pyUpper t → get_chip_family s = get_chip_family t) ∧
    get_chip_family (str r"16F887") = str r"PIC16F" ∧
    get_chip_family (str r"12F675") = str r"PIC12F" ∧
    get_chip_family (str r"18F4550") = str r"PIC18F" ∧
    get_chip_family (str r"30F2010") = str r"dsPIC" ∧
    get_chip_family (str r"unknown99") = str r"Other" := by
  refine ⟨fun s t h => ?_, by decide, by decide, by decide, by decide, by decide⟩
  unfold get_chip_family
  rw [h]

/-- Witness for C5's case-insensitivity at a concrete pair of names. -/
theorem family_classification_witness :
    pyUpper (str r"16f887") = pyUpper (str r"16F887") ∧
    get_chip_family (str r"16f887") = get_chip_family (str r"16F887") :=
  ⟨by decide, family_classification.1 (str r"16f887") (str r"16F887") (by decide)⟩

/-! ## Claim C1 -/

theorem stepMatch (m : Int) (nb na nr : Nat) :
    (if (nr : Int) = 0 ∧ (nb : Int) > 0 then
       if (na : Int) < 0x2000 then
         some (max m ((na : Int).fdiv 2 + (nb : Int).fdiv 2))
       else some m
     else some m) =
      some
        (match
          (if (nr : Int) = 0 ∧ (nb : Int) ≠ 0 ∧ (na : Int) < 0x2000 then
             some ((na : Int).fdiv 2 + (nb : Int).fdiv 2)
           else none) with
        | some v => max m v
        | none => m) := by
  split_ifs with h1 h2 h3 h4 h5 <;> first | rfl | (exfalso; omega)

theorem hexRecordStep_wf {l : Str} (h : wfHexLine l = true) (m : Int) :
    hexRecordStep (some m) l =
      some
        (match specContribution l with
        | some v => max m v
        | none => m) := by
  by_cases hstart : listStartsWith (pyStrip l) (str r":") = true
  case neg =>
    have hs' : listStartsWith (pyStrip l) (str r":") = false := by
      simpa using hstart
    rw [hexRecordStep, specContribution]
    simp [hs']
  case pos =>
    have h123 := h
    simp only [wfHexLine, hstart, Bool.not_true, Bool.false_or, Bool.and_eq_true] at h123
    obtain ⟨⟨h1, h2⟩, h3⟩ := h123
    rw [hexRecordStep, specContribution]
    simp only [hstart, Bool.not_true, if_pos, if_false, pyIntHex_hexOnly h1,
      pyIntHex_hexOnly h2, pyIntHex_hexOnly h3, Bool.false_eq_true]
    exact stepMatch m _ _ _

theorem parse_foldl_wf {lines : List Str} (h : ∀ l ∈ lines, wfHexLine l = true) (m : Int) :
    lines.foldl hexRecordStep (some m) =
      some
        (lines.foldl
          (fun m l =>
            match specContribution l with
            | some v => max m v
            | none => m)
          m) := by
  induction lines generalizing m with
  | nil => rfl
  | cons l ls ih =>
    rw [List.foldl_cons, List.foldl_cons, hexRecordStep_wf (h l (by simp)) m]
    exact ih (fun x hx => h x (by simp [hx])) _

/-- C1: on a syntactically well-formed Intel HEX input, the estimated program
size computed by `_parse_hex_file_size` equals the running maximum (from 0)
of `address div 2 + byte_count div 2` over exactly the lines that start with
`:` and have record type `00`, a nonzero byte count, and an address strictly
below `0x2000` (`specContribution` / `specHexSize`); all other lines
(including type `01` records and addresses at or above `0x2000`) contribute
nothing. -/
theorem hex_size_is_running_max {lines : List Str}
    (h : ∀ l ∈ lines, wfHexLine l = true) :
    parse_hex_file_size lines = some (specHexSize lines) :=
  parse_foldl_wf h 0

/-- Witness for C1: a concrete three-line HEX input (data record at byte
address 0, a higher data record, and the type-01 end marker). -/
theorem hex_size_is_running_max_witness :
    (∀ l ∈ [str r":020000000102", str r":0400080000000000", str r":00000001FF"],
        wfHexLine l = true) ∧
    parse_hex_file_size [str r":020000000102", str r":0400080000000000", str r":00000001FF"] =
      some 6 :=
  ⟨by decide, by
    rw [hex_size_is_running_max (by decide)]
    decide⟩

/-! ## Claims C2 and C4 -/

theorem msgTooLarge_has_figs (h r : Int) :
    hasSub (msgTooLarge h r) (pyStrInt h) ∧ hasSub (msgTooLarge h r) (pyStrInt r) :=
  ⟨⟨str r"HEX file too large: ",
      str r" words > " ++ pyStrInt r ++ str r" words ROM capacity", by
        simp [msgTooLarge, List.append_assoc]⟩,
   ⟨str r"HEX file too large: " ++ pyStrInt h ++ str r" words > ",
      str r" words ROM capacity", by simp [msgTooLarge, List.append_assoc]⟩⟩

theorem msgOK_has_figs (h r : Int) :
    hasSub (msgOK h r) (pyStrInt h) ∧ hasSub (msgOK h r) (pyStrInt r) :=
  ⟨⟨str r"HEX file size OK: ",
      str r" words <= " ++ pyStrInt r ++ str r" words ROM capacity", by
        simp [msgOK, List.append_assoc]⟩,
   ⟨str r"HEX file size OK: " ++ pyStrInt h ++ str r" words <= ",
      str r" words ROM capacity", by simp [msgOK, List.append_assoc]⟩⟩

/-- C2: whenever both the ROM capacity and the estimated HEX size resolve,
a strictly larger estimate yields the fail outcome whose message contains
both figures, and otherwise the pass outcome whose message contains both
figures. -/
theorem validate_size_comparison :
    ∀ (chips : List ChipInfo) (chip_name : Str) (hexFile : Option (List Str)) (r h : Int),
      get_chip_rom_size chips chip_name = some r →
      hexFile.bind parse_hex_file_size = some h →
      ((r < h →
          validate_hex_file_size chips chip_name hexFile = (false, msgTooLarge h r) ∧
          hasSub (msgTooLarge h r) (pyStrInt h) ∧ hasSub (msgTooLarge h r) (pyStrInt r)) ∧
       (h ≤ r →
          validate_hex_file_size chips chip_name hexFile = (true, msgOK h r) ∧
          hasSub (msgOK h r) (pyStrInt h) ∧ hasSub (msgOK h r) (pyStrInt r))) := by
  intro chips nm file r h hr hh
  constructor
  · intro hlt
    exact ⟨by simp [validate_hex_file_size, hr, hh, hlt], (msgTooLarge_has_figs h r).1,
      (msgTooLarge_has_figs h r).2⟩
  · intro hle
    have hnot : ¬(h > r) := not_lt.mpr hle
    exact ⟨by simp [validate_hex_file_size, hr, hh, hnot], (msgOK_has_figs h r).1,
      (msgOK_has_figs h r).2⟩

/-- Witness for C2: a 1024-word chip against a 4096-word HEX file (fail)
and against a 16-word HEX file (pass). -/
theorem validate_size_comparison_witness :
    (validate_hex_file_size
        [[(str r"name", str r"16F84A"), (str r"INCLUDE", str r"Y"),
          (str r"ROMSIZE", str r"000400")]]
        (str r"16F84A") (some [str r":101FF000"]) =
      (false, msgTooLarge 4096 1024)) ∧
    hasSub (msgTooLarge 4096 1024) (pyStrInt 4096) ∧
    hasSub (msgTooLarge 4096 1024) (pyStrInt 1024) ∧
    (validate_hex_file_size
        [[(str r"name", str r"16F84A"), (str r"INCLUDE", str r"Y"),
          (str r"ROMSIZE", str r"000400")]]
        (str r"16F84A") (some [str r":10001000"]) =
      (true, msgOK 16 1024)) := by
  have t1 :=
    validate_size_comparison
      [[(str r"name", str r"16F84A"), (str r"INCLUDE", str r"Y"),
        (str r"ROMSIZE", str r"000400")]]
      (str r"16F84A") (some [str r":101FF000"]) 1024 4096 (by decide) (by decide)
  have t2 :=
    validate_size_comparison
      [[(str r"name", str r"16F84A"), (str r"INCLUDE", str r"Y"),
        (str r"ROMSIZE", str r"000400")]]
      (str r"16F84A") (some [str r":10001000"]) 1024 16 (by decide) (by decide)
  exact ⟨(t1.1 (by decide)).1, (t1.1 (by decide)).2.1, (t1.1 (by decide)).2.2,
    (t2.2 (by decide)).1⟩

theorem msgUnknownRom_ne_msgOK (nm : Str) (h r : Int) : msgUnknownRom nm ≠ msgOK h r := by
  intro he
  have h1 : (msgUnknownRom nm).head? = some 'U' := rfl
  have h2 : (msgOK h r).head? = some 'H' := rfl
  rw [he, h2] at h1
  exact absurd h1 (by decide)

theorem msgCouldNotParse_ne_msgOK (h r : Int) : msgCouldNotParse ≠ msgOK h r := by
  intro he
  have h1 : msgCouldNotParse.head? = some 'C' := rfl
  have h2 : (msgOK h r).head? = some 'H' := rfl
  rw [he, h2] at h1
  exact absurd h1 (by decide)

/-- C4: the validator returns a fail outcome only on a confirmed size
overrun; an unresolvable ROM capacity or an unparseable/unreadable HEX
file yields a pass outcome (`ok = true`) whose diagnostic message is
distinct from every confirmed-fits pass message. -/
theorem validate_never_blocks :
    ∀ (chips : List ChipInfo) (chip_name : Str) (hexFile : Option (List Str)),
      ((validate_hex_file_size chips chip_name hexFile).1 = false →
        ∃ r h, get_chip_rom_size chips chip_name = some r ∧
          hexFile.bind parse_hex_file_size = some h ∧ r < h) ∧
      (get_chip_rom_size chips chip_name = none →
        validate_hex_file_size chips chip_name hexFile = (true, msgUnknownRom chip_name) ∧
        ∀ h r : Int, msgUnknownRom chip_name ≠ msgOK h r) ∧
      (∀ r, get_chip_rom_size chips chip_name = some r →
        hexFile.bind parse_hex_file_size = none →
        validate_hex_file_size chips chip_name hexFile = (true, msgCouldNotParse) ∧
        ∀ h r' : Int, msgCouldNotParse ≠ msgOK h r') := by
  intro chips nm file
  refine ⟨?_, ?_, ?_⟩
  · intro hfail
    rcases hrom : get_chip_rom_size chips nm with _ | r
    · simp [validate_hex_file_size, hrom] at hfail
    · rcases hhex : file.bind parse_hex_file_size with _ | h
      · simp [validate_hex_file_size, hrom, hhex] at hfail
      · by_cases hgt : h > r
        · exact ⟨r, h, rfl, rfl, hgt⟩
        · simp [validate_hex_file_size, hrom, hhex, hgt] at hfail
  · intro hrom
    exact ⟨by simp [validate_hex_file_size, hrom], fun h r => msgUnknownRom_ne_msgOK nm h r⟩
  · intro r hrom hhex
    exact ⟨by simp [validate_hex_file_size, hrom, hhex],
      fun h r' => msgCouldNotParse_ne_msgOK h r'⟩

/-- Witness for C4: a chip absent from catalog and fallback table (unknown
capacity), and a readable chip with an unreadable HEX file. -/
theorem validate_never_blocks_witness :
    validate_hex_file_size [] (str r"NOPE") none = (true, msgUnknownRom (str r"NOPE")) ∧
    validate_hex_file_size [pic16f887_info] (str r"16F887") none = (true, msgCouldNotParse) :=
  ⟨((validate_never_blocks [] (str r"NOPE") none).2.1 (by decide)).1,
   ((validate_never_blocks [pic16f887_info] (str r"16F887") none).2.2 7168 (by decide)
      (by decide)).1⟩

/-! ## Claims C6, C7, C9: the parse pipeline -/

theorem sortChips_perm (l : List ChipInfo) : (sortChips l).Perm l :=
  List.perm_insertionSort _ l

theorem mem_sortChips {c : ChipInfo} {l : List ChipInfo} : c ∈ sortChips l ↔ c ∈ l :=
  (sortChips_perm l).mem_iff

theorem countP_sortChips (p : ChipInfo → Bool) (l : List ChipInfo) :
    (sortChips l).countP p = l.countP p :=
  (List.perm_insertionSort _ l).countP_eq p

/-- C6: a parsed record is retained in the final catalog iff its `INCLUDE`
field is the exact string `"Y"`: every retained record satisfies the test
(default `"N"` when the field is absent), and every parsed record
satisfying it is retained. -/
theorem include_filter :
    ∀ (st : DB) (data : Str), data ≠ [] →
      (∀ c ∈ (parse_chipdata st data).chips,
        dictGetD c (str r"INCLUDE") (str r"N") = str r"Y") ∧
      (∀ p ∈ parsedBlocks data,
        dictGetD p.2 (str r"INCLUDE") (str r"N") = str r"Y" →
        p.2 ∈ (parse_chipdata st data).chips) := by
  intro st data hdata
  have hbase : ∀ c ∈ (includedChips data).map Prod.snd,
      dictGetD c (str r"INCLUDE") (str r"N") = str r"Y" := by
    intro c hc
    obtain ⟨p, hpmem, rfl⟩ := List.mem_map.mp hc
    have hinc := (List.mem_filter.mp hpmem).2
    simpa [isIncluded] using hinc
  constructor
  · intro c hc
    rw [parse_chipdata, if_neg hdata] at hc
    by_cases hpatch : has16F887 ((includedChips data).map Prod.snd) = true
    · simp only [hpatch, if_true] at hc
      exact hbase c (mem_sortChips.mp hc)
    · simp only [hpatch, if_false, Bool.false_eq_true] at hc
      rcases List.mem_append.mp (mem_sortChips.mp hc) with hl | hr
      · exact hbase c hl
      · have : c = pic16f887_info := by simpa using hr
        subst this
        decide
  · intro p hp hY
    rw [parse_chipdata, if_neg hdata]
    have hmem : p ∈ includedChips data :=
      List.mem_filter.mpr ⟨hp, by simp [isIncluded, hY]⟩
    have hmem2 : p.2 ∈ (includedChips data).map Prod.snd := List.mem_map_of_mem _ hmem
    by_cases hpatch : has16F887 ((includedChips data).map Prod.snd) = true
    · simp only [hpatch, if_true]
      exact mem_sortChips.mpr hmem2
    · simp only [hpatch, if_false, Bool.false_eq_true]
      exact mem_sortChips.mpr (List.mem_append_left _ hmem2)

/-- Witness for C6: the included `16F84` record of `sampleData` is retained. -/
theorem include_filter_witness :
    ([(str r"name", str r"16F84"), (str r"INCLUDE", str r"Y"),
        (str r"ROMSIZE", str r"000400")] : ChipInfo) ∈
      (parse_chipdata ⟨[], []⟩ sampleData).chips :=
  (include_filter ⟨[], []⟩ sampleData (by decide)).2
    (str r"16F84",
      [(str r"name", str r"16F84"), (str r"INCLUDE", str r"Y"),
        (str r"ROMSIZE", str r"000400")])
    (by decide) (by decide)

theorem famAdd_mem (fams : Families) (fam nm : Str) :
    ∃ l, List.lookup fam (famAdd fams fam nm) = some l ∧ nm ∈ l := by
  induction fams with
  | nil => exact ⟨[nm], by simp [famAdd, List.lookup], by simp⟩
  | cons f rest ih =>
    obtain ⟨k, v⟩ := f
    by_cases hk : k = fam
    · subst hk
      exact ⟨v ++ [nm], by simp [famAdd, List.lookup], by simp⟩
    · obtain ⟨l, hl, hml⟩ := ih
      refine ⟨l, ?_, hml⟩
      have hne : (fam == k) = false := by simp [Ne.symm hk]
      simp [famAdd, hk, List.lookup, hne, hl]

theorem lookup_map_sortStrs (fams : Families) (k : Str) :
    List.lookup k (fams.map (fun p => (p.1, sortStrs p.2))) =
      (List.lookup k fams).map sortStrs := by
  induction fams with
  | nil => rfl
  | cons f rest ih =>
    obtain ⟨kf, vf⟩ := f
    by_cases hk : (k == kf) = true
    · simp [List.lookup, hk]
    · simp only [Bool.not_eq_true] at hk
      simp [List.lookup, hk, ih]

/-- C7 (amended): parsing empty/missing catalog text is a no-op, so the
patch does not run there; on nonempty text the catalog always gains a
`16F887` record when the source had none (and exactly then — the patch
itself never duplicates: the number of upper-cased-`16F887` records equals
the source's count, or 1 when that count is 0), and a synthesized record is
bucketed into family `PIC16F`. -/
theorem patch_16f887 :
    (∀ st : DB, parse_chipdata st [] = st) ∧
    (∀ (st : DB) (data : Str), data ≠ [] →
      ((parse_chipdata st data).chips.countP
          (fun c => pyUpper (chipNameOf c) == str r"16F887") =
        max 1
          (((includedChips data).map Prod.snd).countP
            (fun c => pyUpper (chipNameOf c) == str r"16F887"))) ∧
      (((includedChips data).map Prod.snd).countP
          (fun c => pyUpper (chipNameOf c) == str r"16F887") = 0 →
        ∃ l, List.lookup (str r"PIC16F") (parse_chipdata st data).families = some l ∧
          str r"16F887" ∈ l)) := by
  constructor
  · intro st
    rw [parse_chipdata, if_pos rfl]
  · intro st data hdata
    rw [parse_chipdata, if_neg hdata]
    by_cases hpatch : has16F887 ((includedChips data).map Prod.snd) = true
    · have hpos : 0 < ((includedChips data).map Prod.snd).countP
          (fun c => pyUpper (chipNameOf c) == str r"16F887") := by
        rw [has16F887, List.any_eq_true] at hpatch
        obtain ⟨c, hc, hcp⟩ := hpatch
        exact List.countP_pos_iff.mpr ⟨c, hc, hcp⟩
      constructor
      · simp only [hpatch, if_true]
        rw [countP_sortChips]
        omega
      · intro hk0
        omega
    · have hk0 : ((includedChips data).map Prod.snd).countP
          (fun c => pyUpper (chipNameOf c) == str r"16F887") = 0 := by
        simp only [Bool.not_eq_true] at hpatch
        rw [has16F887] at hpatch
        refine List.countP_eq_zero.mpr (fun c hc => ?_)
        intro hcp
        rw [List.any_eq_false] at hpatch
        exact hpatch c hc hcp
      constructor
      · simp only [hpatch, if_false, Bool.false_eq_true]
        rw [countP_sortChips, List.countP_append, hk0]
        decide
      · intro _
        simp only [hpatch, if_false, Bool.false_eq_true]
        obtain ⟨l, hl, hml⟩ :=
          famAdd_mem (famsOf (includedChips data)) (str r"PIC16F") (str r"16F887")
        refine ⟨sortStrs l, ?_, (List.perm_insertionSort _ l).mem_iff.mpr hml⟩
        rw [show get_chip_family (str r"16F887") = str r"PIC16F" from by decide,
          lookup_map_sortStrs, hl]
        rfl

/-- C7 counterexample: when the catalog text could not be fetched (falsy
data), the parse is a no-op and the catalog contains no `16F887` record at
all — the patch does not run unconditionally. -/
theorem patch_16f887_counterexample :
    (parse_chipdata ⟨[], []⟩ []).chips.countP
      (fun c => pyUpper (chipNameOf c) == str r"16F887") = 0 := by decide

/-- Witness for C7's amended statement on a concrete nonempty catalog. -/
theorem patch_16f887_witness :
    (parse_chipdata ⟨[], []⟩ sampleData).chips.countP
        (fun c => pyUpper (chipNameOf c) == str r"16F887") = 1 ∧
    ∃ l, List.lookup (str r"PIC16F") (parse_chipdata ⟨[], []⟩ sampleData).families = some l ∧
      str r"16F887" ∈ l := by
  have t := patch_16f887.2 ⟨[], []⟩ sampleData (by decide)
  refine ⟨?_, t.2 (by decide)⟩
  rw [t.1]
  decide

/-- C9 counterexample: the loader performs no deduplication — a catalog
text repeating an included name yields a catalog whose records do not have
pairwise-distinct names. -/
theorem name_unique_counterexample :
    ¬ (((parse_chipdata ⟨[], []⟩ dupNameData).chips.map chipNameOf).Pairwise (· ≠ ·)) := by
  decide

/-- C9 (amended): chip names are pairwise distinct after load provided the
included source records' names are already pairwise distinct (the
synthesized `16F887` never collides with them); the loader itself performs
no deduplication. -/
theorem name_unique_amended :
    ∀ (st : DB) (data : Str), data ≠ [] →
      (((includedChips data).map Prod.snd).map chipNameOf).Nodup →
      ((parse_chipdata st data).chips.map chipNameOf).Nodup := by
  intro st data hdata hnd
  rw [parse_chipdata, if_neg hdata]
  by_cases hpatch : has16F887 ((includedChips data).map Prod.snd) = true
  · simp only [hpatch, if_true]
    exact ((sortChips_perm _).map chipNameOf).nodup_iff.mpr hnd
  · simp only [hpatch, if_false, Bool.false_eq_true]
    rw [((sortChips_perm _).map chipNameOf).nodup_iff, List.map_append]
    simp only [List.map_cons, List.map_nil]
    rw [(List.perm_append_singleton _ _).nodup_iff, List.nodup_cons]
    refine ⟨?_, hnd⟩
    intro hmem
    obtain ⟨c, hc, hcname⟩ := List.mem_map.mp hmem
    simp only [Bool.not_eq_true] at hpatch
    rw [has16F887, List.any_eq_false] at hpatch
    have := hpatch c hc
    rw [show chipNameOf pic16f887_info = str r"16F887" from rfl] at hcname
    rw [hcname] at this
    exact this (by decide)

/-- Witness for C9's amended statement on a concrete catalog with distinct
names. -/
theorem name_unique_amended_witness :
    ((parse_chipdata ⟨[], []⟩ sampleData).chips.map chipNameOf).Nodup :=
  name_unique_amended ⟨[], []⟩ sampleData (by decide) (by decide)

/-! ## Claim C8: search -/

theorem listStartsWith_iff {pat s : Str} :
    listStartsWith s pat = true ↔ ∃ t, s = pat ++ t := by
  induction pat generalizing s with
  | nil => simp [listStartsWith]
  | cons p ps ih =>
    cases s with
    | nil => simp [listStartsWith]
    | cons c t =>
      rw [listStartsWith]
      simp only [Bool.and_eq_true, decide_eq_true_eq, ih, List.cons_append,
        List.cons.injEq]
      constructor
      · rintro ⟨rfl, u, rfl⟩
        exact ⟨u, rfl, rfl⟩
      · rintro ⟨u, rfl, rfl⟩
        exact ⟨rfl, u, rfl⟩

theorem listContainsSub_iff {s pat : Str} :
    listContainsSub s pat = true ↔ ∃ a b, s = a ++ pat ++ b := by
  induction s with
  | nil =>
    rw [listContainsSub]
    simp only [Bool.or_eq_true, listStartsWith_iff]
    constructor
    · rintro (⟨t, ht⟩ | h)
      · exact ⟨[], t, by simpa using ht⟩
      · simp at h
    · rintro ⟨a, b, hab⟩
      rcases List.append_eq_nil.mp (List.append_eq_nil.mp hab.symm).1 with ⟨rfl, rfl⟩
      exact Or.inl ⟨b, by simpa using hab⟩
  | cons c t ih =>
    rw [listContainsSub]
    simp only [Bool.or_eq_true, listStartsWith_iff, ih]
    constructor
    · rintro (⟨u, hu⟩ | ⟨a, b, hab⟩)
      · exact ⟨[], u, by simpa using hu⟩
      · exact ⟨c :: a, b, by simp [hab]⟩
    · rintro ⟨a, b, hab⟩
      cases a with
      | nil => exact Or.inl ⟨b, by simpa using hab⟩
      | cons a0 as =>
        right
        simp only [List.cons_append, List.cons.injEq] at hab
        exact ⟨as, b, hab.2⟩

theorem strLe_total : ∀ a b : Str, strLe a b = true ∨ strLe b a = true := by
  intro a
  induction a with
  | nil => intro b; exact Or.inl rfl
  | cons x xs ih =>
    intro b
    cases b with
    | nil => exact Or.inr rfl
    | cons y ys =>
      by_cases hxy : x = y
      · subst hxy
        rcases ih ys with h | h
        · exact Or.inl (by rw [strLe, if_pos rfl]; exact h)
        · exact Or.inr (by rw [strLe, if_pos rfl]; exact h)
      · rcases lt_or_gt_of_ne hxy with h | h
        · exact Or.inl (by rw [strLe, if_neg hxy]; exact decide_eq_true h)
        · exact Or.inr (by rw [strLe, if_neg (Ne.symm hxy)]; exact decide_eq_true h)

theorem strLe_trans : ∀ a b c : Str, strLe a b = true → strLe b c = true → strLe a c = true := by
  intro a
  induction a with
  | nil => intro b c _ _; rfl
  | cons x xs ih =>
    intro b c hab hbc
    cases b with
    | nil => rw [strLe] at hab; cases hab
    | cons y ys =>
      cases c with
      | nil => rw [strLe] at hbc; cases hbc
      | cons z zs =>
        rw [strLe] at hab hbc ⊢
        by_cases hxy : x = y
        · subst hxy
          rw [if_pos rfl] at hab
          by_cases hyz : x = z
          · subst hyz
            rw [if_pos rfl] at hbc ⊢
            exact ih _ _ hab hbc
          · rw [if_neg hyz] at hbc ⊢
            exact hbc
        · rw [if_neg hxy] at hab
          have hlt : x < y := of_decide_eq_true hab
          by_cases hyz : y = z
          · subst hyz
            rw [if_neg hxy]
            exact hab
          · rw [if_neg hyz] at hbc
            have hlt2 : y < z := of_decide_eq_true hbc
            have hxz : x < z := lt_trans hlt hlt2
            rw [if_neg (ne_of_lt hxz)]
            exact decide_eq_true hxz

theorem sortStrs_pairwise (l : List Str) :
    (sortStrs l).Pairwise (fun a b => strLe a b = true) := by
  haveI : IsTotal Str (fun a b => strLe a b = true) := ⟨strLe_total⟩
  haveI : IsTrans Str (fun a b => strLe a b = true) := ⟨fun a b c => strLe_trans a b c⟩
  exact List.sorted_insertionSort _ l

theorem map_filter_comm (f : ChipInfo → Str) (p : Str → Bool) (l : List ChipInfo) :
    (l.filter (fun c => p (f c))).map f = (l.map f).filter p := by
  induction l with
  | nil => rfl
  | cons c t ih =>
    by_cases h : p (f c) = true
    · simp [List.filter_cons, h, ih]
    · simp [List.filter_cons, h, ih]

theorem listContainsSub_nil_pat (s : Str) : listContainsSub s [] = true := by
  cases s with
  | nil => rfl
  | cons c t =>
    rw [listContainsSub]
    simp [listStartsWith]

/-- C8: `search_chips` returns, sorted lexicographically, exactly the chip
names whose upper-cased form contains the upper-cased query as a substring
(`listContainsSub n q = true` iff `q` is a contiguous substring of `n`);
the empty query returns every catalog name, sorted. -/
theorem search_exact_sorted :
    ∀ (chips : List ChipInfo) (query : Str),
      (search_chips chips query).Pairwise (fun a b => strLe a b = true) ∧
      (search_chips chips query).Perm
        ((chips.map chipNameOf).filter
          (fun n => listContainsSub (pyUpper n) (pyUpper query))) ∧
      (∀ s pat : Str, listContainsSub s pat = true ↔ ∃ a b, s = a ++ pat ++ b) ∧
      (search_chips chips []).Perm (chips.map chipNameOf) := by
  intro chips q
  refine ⟨sortStrs_pairwise _, ?_, fun s pat => listContainsSub_iff, ?_⟩
  · rw [search_chips,
      map_filter_comm chipNameOf (fun n => listContainsSub (pyUpper n) (pyUpper q)) chips]
    exact List.perm_insertionSort _ _
  · rw [search_chips]
    have hall : chips.filter
        (fun c => listContainsSub (pyUpper (chipNameOf c)) (pyUpper [])) = chips :=
      List.filter_eq_self.mpr (fun c _ => listContainsSub_nil_pat _)
    rw [hall]
    exact List.perm_insertionSort _ _

/-! ## Claim C10: non-digit ROM-size values -/

theorem alpha_ranges {c : Char} (h : c.isAlpha = true) :
    ('A' ≤ c ∧ c ≤ 'Z') ∨ ('a' ≤ c ∧ c ≤ 'z') := by
  simp only [Char.isAlpha, Char.isUpper, Char.isLower, Bool.or_eq_true, Bool.and_eq_true,
    decide_eq_true_eq] at h
  exact h

theorem alpha_decDigit_none {c : Char} (h : c.isAlpha = true) : decDigitVal? c = none := by
  rw [decDigitVal?, if_neg]
  rintro ⟨h1, h2⟩
  rcases alpha_ranges h with ⟨ha, _⟩ | ⟨ha, _⟩
  · exact absurd (le_trans ha h2) (by decide)
  · exact absurd (le_trans ha h2) (by decide)

theorem alpha_ne {c : Char} (h : c.isAlpha = true) (x : Char) (hx : x.isAlpha = false) :
    c ≠ x := by
  intro he
  rw [he] at h
  rw [h] at hx
  cases hx

theorem alpha_not_space {c : Char} (h : c.isAlpha = true) : pyIsSpace c = false := by
  rcases hs : pyIsSpace c
  · rfl
  · exfalso
    simp only [pyIsSpace, Bool.or_eq_true, decide_eq_true_eq] at hs
    rcases hs with ((((h1 | h1) | h1) | h1) | h1) | h1 <;> subst h1 <;>
      exact absurd h (by decide)

theorem pyDigitsAux_dec_alpha :
    ∀ (s : Str), (∃ c ∈ s, c.isAlpha = true) → ∀ acc : Nat,
      pyDigitsAux decDigitVal? 10 s acc = none
  | [], h, _ => by simp at h
  | c :: rest, h, acc => by
    obtain ⟨a, ha, hal⟩ := h
    rw [pyDigitsAux.eq_def]
    by_cases hu : c = '_'
    · simp only [if_pos hu]
      have hne : a ≠ '_' := alpha_ne hal '_' (by decide)
      have ha2 : a ∈ rest := by
        rcases List.mem_cons.mp ha with h2 | h2
        · exact absurd (hu ▸ h2) hne
        · exact h2
      cases rest with
      | nil => rfl
      | cons c2 rest2 =>
        rcases List.mem_cons.mp ha2 with h3 | ha3
        · subst h3
          simp only [alpha_decDigit_none hal, Option.none_bind]
        · cases hdc : decDigitVal? c2 with
          | none => simp only [hdc, Option.none_bind]
          | some d =>
            simp only [hdc, Option.some_bind]
            exact pyDigitsAux_dec_alpha rest2 ⟨a, ha3, hal⟩ _
    · simp only [if_neg hu]
      rcases List.mem_cons.mp ha with h3 | ha2
      · subst h3
        simp only [alpha_decDigit_none hal, Option.none_bind]
      · cases hdc : decDigitVal? c with
        | none => simp only [hdc, Option.none_bind]
        | some d =>
          simp only [hdc, Option.some_bind]
          exact pyDigitsAux_dec_alpha rest ⟨a, ha2, hal⟩ _

theorem pyDigits_dec_alpha {s : Str} (h : ∃ c ∈ s, c.isAlpha = true) :
    pyDigits decDigitVal? 10 s = none := by
  cases s with
  | nil => simp at h
  | cons c rest =>
    obtain ⟨a, ha, hal⟩ := h
    rw [pyDigits]
    rcases List.mem_cons.mp ha with h3 | ha2
    · subst h3
      simp only [alpha_decDigit_none hal, Option.none_bind]
    · cases hdc : decDigitVal? c with
      | none => simp only [hdc, Option.none_bind]
      | some d =>
        simp only [hdc, Option.some_bind]
        exact pyDigitsAux_dec_alpha rest ⟨a, ha2, hal⟩ _

theorem mem_dropWhile_of_not {p : Char → Bool} {c : Char} {s : Str} (hc : c ∈ s)
    (hp : p c = false) : c ∈ s.dropWhile p := by
  rw [← List.takeWhile_append_dropWhile (p := p) (l := s)] at hc
  rcases List.mem_append.mp hc with h | h
  · exact absurd (List.mem_takeWhile_imp h) (by simp [hp])
  · exact h

theorem mem_pyStrip {c : Char} {s : Str} (hc : c ∈ s) (hp : pyIsSpace c = false) :
    c ∈ pyStrip s := by
  rw [pyStrip, List.mem_reverse]
  exact mem_dropWhile_of_not (List.mem_reverse.mpr (mem_dropWhile_of_not hc hp)) hp

theorem pyIntDec_none_of_alpha {s : Str} (h : ∃ c ∈ s, c.isAlpha = true) :
    pyIntDec s = none := by
  obtain ⟨a, ha, hal⟩ := h
  have hat : a ∈ pyStrip s := mem_pyStrip ha (alpha_not_space hal)
  rw [pyIntDec, pyIntOfMag]
  rcases hts : pyStrip s with _ | ⟨c0, tail⟩
  · rw [hts] at hat
    simp at hat
  · rw [hts] at hat
    simp only [hts, List.head?_cons, List.tail_cons]
    by_cases hp : c0 = '+'
    · subst hp
      rw [if_pos rfl]
      have ha2 : a ∈ tail := by
        rcases List.mem_cons.mp hat with h3 | h3
        · exact absurd h3 (alpha_ne hal '+' (by decide))
        · exact h3
      rw [pyDecMag, pyDigits_dec_alpha ⟨a, ha2, hal⟩]
      rfl
    · rw [if_neg (by simp [hp])]
      by_cases hm : c0 = '-'
      · subst hm
        rw [if_pos rfl]
        have ha2 : a ∈ tail := by
          rcases List.mem_cons.mp hat with h3 | h3
          · exact absurd h3 (alpha_ne hal '-' (by decide))
          · exact h3
        rw [pyDecMag, pyDigits_dec_alpha ⟨a, ha2, hal⟩]
        rfl
      · rw [if_neg (by simp [hm]), if_neg (by simp), pyDecMag,
          pyDigits_dec_alpha ⟨a, hat, hal⟩]
        rfl

theorem alpha_not_digit {c : Char} (h : c.isAlpha = true) : c.isDigit = false := by
  rcases hd : c.isDigit
  · rfl
  · exfalso
    simp only [Char.isDigit, Bool.and_eq_true, decide_eq_true_eq] at hd
    rcases alpha_ranges h with ⟨ha, _⟩ | ⟨ha, _⟩
    · exact absurd (le_trans ha (show c ≤ ('9' : Char) from hd.2)) (by decide)
    · exact absurd (le_trans ha (show c ≤ ('9' : Char) from hd.2)) (by decide)

theorem parseRomValue_none_of_alpha {s : Str} (h : ∃ c ∈ s, c.isAlpha = true) :
    parseRomValue s = none := by
  have hdig : pyIsdigit s = false := by
    obtain ⟨c, hc, hal⟩ := h
    rcases hd : pyIsdigit s
    · rfl
    · exfalso
      simp only [pyIsdigit, Bool.and_eq_true, Bool.not_eq_true', List.isEmpty_eq_false,
        List.all_eq_true] at hd
      have := hd.2 c hc
      rw [alpha_not_digit hal] at this
      cases this
  rw [parseRomValue, if_neg (by simp [hdig])]
  exact pyIntDec_none_of_alpha h

theorem tryRomFields_none {info : ChipInfo}
    (h : ∀ f ∈ romFields, ∀ v ∈ (List.lookup f info).toList, ∃ c ∈ v, c.isAlpha = true) :
    tryRomFields info = none := by
  have hf : ∀ f ∈ romFields, (List.lookup f info).bind parseRomValue = none := by
    intro f hfm
    cases hlk : List.lookup f info with
    | none => rfl
    | some v =>
      have hv := h f hfm v (by simp [hlk])
      simp [parseRomValue_none_of_alpha hv]
  rw [tryRomFields]
  simp only [romFields, List.foldl_cons, List.foldl_nil]
  rw [hf (str r"ROMSIZE") (by simp [romFields]), hf (str r"ROMsize") (by simp [romFields]),
    hf (str r"romsize") (by simp [romFields])]
  rfl

/-- C10 (amended): a stored ROM-size value containing an ASCII letter (such
as the hex letter in `"001C00"`) always fails the field-based resolution
path — the all-digit hex branch is not taken and ordinary integer parsing
raises, which is swallowed — so the capacity resolves only through the
hardcoded fallback table (or stays unknown); in particular the synthesized
`16F887` record's `ROMSIZE` field `"001C00"` is never decoded: its
capacity `7168` comes from the fallback table.  (Non-digit values without a
letter can still parse — see the counterexample — so the restriction to
letter-containing values is necessary.) -/
theorem rom_field_letters_fallback :
    (∀ s : Str, (∃ c ∈ s, c.isAlpha = true) → parseRomValue s = none) ∧
    (∀ (chips : List ChipInfo) (chip_name : Str) (info : ChipInfo),
      get_chip_info chips chip_name = some info →
      (∀ f ∈ romFields, ∀ v ∈ (List.lookup f info).toList, ∃ c ∈ v, c.isAlpha = true) →
      get_chip_rom_size chips chip_name = List.lookup (pyUpper chip_name) rom_sizes) ∧
    parseRomValue (str r"001C00") = none ∧
    tryRomFields pic16f887_info = none ∧
    get_chip_rom_size [pic16f887_info] (str r"16F887") = some 7168 ∧
    List.lookup (pyUpper (str r"16F887")) rom_sizes = some 7168 := by
  refine ⟨fun s h => parseRomValue_none_of_alpha h, ?_, by decide, by decide, by decide,
    by decide⟩
  intro chips nm info hinfo hfields
  simp only [get_chip_rom_size, hinfo, tryRomFields_none hfields]

/-- C10 counterexample: a stored ROM-size value with a non-digit character
(a sign) is nevertheless resolved by the field path — Python's ordinary
`int` parsing accepts it — bypassing the fallback table, so the claim's
"any non-decimal-digit character" is too broad. -/
theorem rom_field_letters_counterexample :
    (str r"+100").any (fun c => !c.isDigit) = true ∧
    parseRomValue (str r"+100") = some 100 ∧
    get_chip_rom_size [[(str r"name", str r"ZZCHIP"), (str r"ROMSIZE", str r"+100")]]
      (str r"ZZCHIP") = some 100 ∧
    List.lookup (pyUpper (str r"ZZCHIP")) rom_sizes = none := by decide

/-- Witness for C10's amended statement: the synthesized `16F887` record
resolves through the fallback table. -/
theorem rom_field_letters_fallback_witness :
    get_chip_rom_size [pic16f887_info] (str r"16f887") =
      List.lookup (pyUpper (str r"16f887")) rom_sizes :=
  rom_field_letters_fallback.2.1 [pic16f887_info] (str r"16f887") pic16f887_info
    (by decide) (by decide)

end PyK150
